import Mathlib

/- Verification development for the planar pose-estimation core of this
   repository: the geometry kernel (rotations, transforms, poses, twists),
   the swerve kinematics model, the time-buffered pose estimator, and the
   HID / command-wrapper utility classes whose sources are in the tree.

   The geometry kernel, kinematics model and pose estimator implementation
   files are not present in the source tree (only the Transform3d header
   declarations and the estimator accuracy test are); those components are
   modelled from the specification document, as marked on each definition.
   GenericHID.java and WrapperCommand.cpp are embedded from their sources. -/

/-- Modelled from the spec: the planar Rotation value type (the repository
declares Rotation2d/Rotation3d; the 2d implementation file is missing from
the tree). A heading stored as a unit vector (cosine, sine); the invariant is
that the stored vector has unit norm. -/
structure Rotation2d where
  cos : ℝ
  sin : ℝ
  unit : cos ^ 2 + sin ^ 2 = 1

@[ext] theorem Rotation2d_ext {a b : Rotation2d}
    (hc : a.cos = b.cos) (hs : a.sin = b.sin) : a = b := by
  cases a; cases b; simp_all

/-- Modelled from the spec: the identity rotation (heading zero). -/
def rotId : Rotation2d := ⟨1, 0, by norm_num⟩

/-- Modelled from the spec: composition of two rotations, performed as exact
vector rotation (complex multiplication), not angle arithmetic. -/
def rotMul (a b : Rotation2d) : Rotation2d :=
  ⟨a.cos * b.cos - a.sin * b.sin, a.cos * b.sin + a.sin * b.cos, by
    have h : (a.cos * b.cos - a.sin * b.sin) ^ 2 +
        (a.cos * b.sin + a.sin * b.cos) ^ 2
        = (a.cos ^ 2 + a.sin ^ 2) * (b.cos ^ 2 + b.sin ^ 2) := by ring
    rw [h, a.unit, b.unit, one_mul]⟩

/-- Modelled from the spec: rotation inverse by conjugation. -/
def rotInv (a : Rotation2d) : Rotation2d :=
  ⟨a.cos, -a.sin, by rw [neg_pow]; simpa using a.unit⟩

/-- Modelled from the spec: rotating a 2-vector by a Rotation. -/
def rotateBy (r : Rotation2d) (v : ℝ × ℝ) : ℝ × ℝ :=
  (r.cos * v.1 - r.sin * v.2, r.sin * v.1 + r.cos * v.2)

/-- Vector addition on the plane. -/
def vadd (a b : ℝ × ℝ) : ℝ × ℝ := (a.1 + b.1, a.2 + b.2)

/-- Vector subtraction on the plane. -/
def vsub (a b : ℝ × ℝ) : ℝ × ℝ := (a.1 - b.1, a.2 - b.2)

/-- Vector negation on the plane. -/
def vneg (a : ℝ × ℝ) : ℝ × ℝ := (-a.1, -a.2)

theorem rotMul_assoc (a b c : Rotation2d) :
    rotMul (rotMul a b) c = rotMul a (rotMul b c) := by
  ext <;> simp only [rotMul] <;> ring

theorem rotMul_id_left (a : Rotation2d) : rotMul rotId a = a := by
  ext <;> simp [rotMul, rotId]

theorem rotMul_id_right (a : Rotation2d) : rotMul a rotId = a := by
  ext <;> simp [rotMul, rotId]

theorem rotMul_inv_right (a : Rotation2d) : rotMul a (rotInv a) = rotId := by
  ext
  · simp only [rotMul, rotInv, rotId]
    linear_combination a.unit
  · simp only [rotMul, rotInv, rotId]
    ring

theorem rotMul_inv_left (a : Rotation2d) : rotMul (rotInv a) a = rotId := by
  ext
  · simp only [rotMul, rotInv, rotId]
    linear_combination a.unit
  · simp only [rotMul, rotInv, rotId]
    ring

theorem rotateBy_id (v : ℝ × ℝ) : rotateBy rotId v = v := by
  simp [rotateBy, rotId]

theorem rotateBy_rotateBy (a b : Rotation2d) (v : ℝ × ℝ) :
    rotateBy a (rotateBy b v) = rotateBy (rotMul a b) v := by
  simp only [rotateBy, rotMul, Prod.mk.injEq]
  constructor <;> ring

theorem rotateBy_inv_cancel (a : Rotation2d) (v : ℝ × ℝ) :
    rotateBy a (rotateBy (rotInv a) v) = v := by
  rw [rotateBy_rotateBy, rotMul_inv_right, rotateBy_id]

theorem rotateBy_inv_cancel_left (a : Rotation2d) (v : ℝ × ℝ) :
    rotateBy (rotInv a) (rotateBy a v) = v := by
  rw [rotateBy_rotateBy, rotMul_inv_left, rotateBy_id]

theorem rotateBy_vadd (r : Rotation2d) (u v : ℝ × ℝ) :
    rotateBy r (vadd u v) = vadd (rotateBy r u) (rotateBy r v) := by
  simp only [rotateBy, vadd, Prod.mk.injEq]
  constructor <;> ring

/-- Modelled from the spec: a Transform — a (Translation, Rotation) pair
interpreted as a relative rigid motion between two Poses. The repository
declares the constructor, Inverse and composition in the Transform3d header;
the spec's scope is the planar case, so the planar transform is modelled. -/
structure Transform2d where
  pos : ℝ × ℝ
  rot : Rotation2d

@[ext] theorem Transform2d_ext {a b : Transform2d}
    (hp : a.pos = b.pos) (hr : a.rot = b.rot) : a = b := by
  cases a; cases b; simp_all

/-- Modelled from the spec: a Pose — position and heading in the world
frame. -/
structure Pose2d where
  pos : ℝ × ℝ
  rot : Rotation2d

@[ext] theorem Pose2d_ext {a b : Pose2d}
    (hp : a.pos = b.pos) (hr : a.rot = b.rot) : a = b := by
  cases a; cases b; simp_all

/-- Modelled from the spec: the identity transform, mapping each pose to
itself (the default Transform3d constructor in the header). -/
def transformId : Transform2d := ⟨(0, 0), rotId⟩

/-- Modelled from the spec: composition of two transformations (operator+ in
the Transform3d header): apply this transform, then the other in the frame
reached by this one. -/
def transformAdd (u v : Transform2d) : Transform2d :=
  ⟨vadd u.pos (rotateBy u.rot v.pos), rotMul u.rot v.rot⟩

/-- Modelled from the spec: transform inversion (Inverse in the Transform3d
header): undoing the relative motion. -/
def transformInv (u : Transform2d) : Transform2d :=
  ⟨rotateBy (rotInv u.rot) (vneg u.pos), rotInv u.rot⟩

/-- Modelled from the spec: composing a Pose with a Transform yields the new
Pose reached after that relative motion. -/
def poseTransformBy (p : Pose2d) (u : Transform2d) : Pose2d :=
  ⟨vadd p.pos (rotateBy p.rot u.pos), rotMul p.rot u.rot⟩

/-- Modelled from the spec: the transform that maps the initial pose to the
final pose (the two-pose Transform3d constructor in the header): the relative
motion expressed in the initial pose's frame. -/
def transformFromTo (a b : Pose2d) : Transform2d :=
  ⟨rotateBy (rotInv a.rot) (vsub b.pos a.pos), rotMul (rotInv a.rot) b.rot⟩

/-- C5: every Transform composed with its inverse gives the identity
transform, and Transforms form a group under composition with this identity
and inverse (two-sided identity, two-sided inverse, associativity). In the
real-number model the group laws hold exactly, hence within any floating
tolerance. -/
theorem transform_add_inverse_group (T : Transform2d) :
    transformAdd T (transformInv T) = transformId ∧
    transformAdd (transformInv T) T = transformId ∧
    transformAdd T transformId = T ∧
    transformAdd transformId T = T ∧
    ∀ A B C : Transform2d,
      transformAdd (transformAdd A B) C = transformAdd A (transformAdd B C) := by
  refine ⟨?_, ?_, ?_, ?_, ?_⟩
  · refine Transform2d_ext ?_ ?_
    · show vadd T.pos (rotateBy T.rot (rotateBy (rotInv T.rot) (vneg T.pos)))
        = (0, 0)
      rw [rotateBy_inv_cancel]
      simp [vadd, vneg]
    · exact rotMul_inv_right T.rot
  · refine Transform2d_ext ?_ ?_
    · show vadd (rotateBy (rotInv T.rot) (vneg T.pos))
          (rotateBy (rotInv T.rot) T.pos) = (0, 0)
      simp only [vadd, rotateBy, rotInv, vneg, Prod.mk.injEq]
      constructor <;> ring
    · exact rotMul_inv_left T.rot
  · refine Transform2d_ext ?_ ?_
    · show vadd T.pos (rotateBy T.rot (0, 0)) = T.pos
      simp [vadd, rotateBy]
    · exact rotMul_id_right T.rot
  · refine Transform2d_ext ?_ ?_
    · show vadd (0, 0) (rotateBy rotId T.pos) = T.pos
      rw [rotateBy_id]
      simp [vadd]
    · exact rotMul_id_left T.rot
  · intro A B C
    refine Transform2d_ext ?_ ?_
    · show vadd (vadd A.pos (rotateBy A.rot B.pos))
          (rotateBy (rotMul A.rot B.rot) C.pos)
        = vadd A.pos (rotateBy A.rot (vadd B.pos (rotateBy B.rot C.pos)))
      rw [rotateBy_vadd, rotateBy_rotateBy]
      simp only [vadd, Prod.mk.injEq]
      constructor <;> ring
    · exact rotMul_assoc A.rot B.rot C.rot

/-- C6: for every Pose P and Transform T, the transform recovered from the
pose pair (P, P + T) — the Transform constructed from initial pose P and
final pose P + T — is exactly T (so in particular it is T within any floating
tolerance). -/
theorem transform_from_pose_pair_recovers (P : Pose2d) (T : Transform2d) :
    transformFromTo P (poseTransformBy P T) = T := by
  refine Transform2d_ext ?_ ?_
  · show rotateBy (rotInv P.rot) (vsub (vadd P.pos (rotateBy P.rot T.pos)) P.pos)
      = T.pos
    have h : vsub (vadd P.pos (rotateBy P.rot T.pos)) P.pos
        = rotateBy P.rot T.pos := by
      simp [vadd, vsub]
    rw [h, rotateBy_inv_cancel_left]
  · show rotMul (rotInv P.rot) (rotMul P.rot T.rot) = T.rot
    rw [← rotMul_assoc, rotMul_inv_left, rotMul_id_left]

/-- Modelled from the spec: a Twist — (dx, dy, dtheta), an instantaneous
body-frame velocity or infinitesimal motion increment. -/
structure Twist2d where
  dx : ℝ
  dy : ℝ
  dtheta : ℝ

@[ext] theorem Twist2d_ext {a b : Twist2d}
    (hx : a.dx = b.dx) (hy : a.dy = b.dy) (ht : a.dtheta = b.dtheta) :
    a = b := by
  cases a; cases b; simp_all

/-- Modelled from the spec: the Rotation whose heading is the given angle. -/
noncomputable def rotOfAngle (θ : ℝ) : Rotation2d :=
  ⟨Real.cos θ, Real.sin θ, Real.cos_sq_add_sin_sq θ⟩

/-- Modelled from the spec: the angle of a Rotation, read back from its unit
vector (the principal value in the interval from minus pi exclusive to pi
inclusive). -/
noncomputable def rotAngle (r : Rotation2d) : ℝ :=
  Complex.arg (r.cos + r.sin * Complex.I)

/-- Modelled from the spec: the coefficient sin(dtheta)/dtheta of the twist
exponential, defined by its limiting value 1 as dtheta tends to 0 rather than
evaluated by direct division. -/
noncomputable def twistCoeffS (θ : ℝ) : ℝ := if θ = 0 then 1 else Real.sin θ / θ

/-- Modelled from the spec: the coefficient (1-cos(dtheta))/dtheta of the
twist exponential, defined by its limiting value 0 as dtheta tends to 0
rather than evaluated by direct division. -/
noncomputable def twistCoeffC (θ : ℝ) : ℝ :=
  if θ = 0 then 0 else (1 - Real.cos θ) / θ

/-- Modelled from the spec: the exponential map. Integrating a twist over
unit time produces the Transform that exact constant-curvature motion would
produce; the closed form uses the two limiting-value coefficients, so the
zero-angular-rate case never divides by the vanishing rate. -/
noncomputable def twistExp (t : Twist2d) : Transform2d :=
  ⟨(t.dx * twistCoeffS t.dtheta - t.dy * twistCoeffC t.dtheta,
    t.dx * twistCoeffC t.dtheta + t.dy * twistCoeffS t.dtheta),
   rotOfAngle t.dtheta⟩

/-- Modelled from the spec: the logarithmic map, recovering the twist that
exactly explains an observed Transform; it inverts the two-by-two coefficient
matrix of the exponential and uses the same limiting-value coefficients at
zero angular rate. -/
noncomputable def twistLog (u : Transform2d) : Twist2d :=
  ⟨(twistCoeffS (rotAngle u.rot) * u.pos.1 + twistCoeffC (rotAngle u.rot) * u.pos.2) /
      (twistCoeffS (rotAngle u.rot) ^ 2 + twistCoeffC (rotAngle u.rot) ^ 2),
   (-(twistCoeffC (rotAngle u.rot)) * u.pos.1 + twistCoeffS (rotAngle u.rot) * u.pos.2) /
      (twistCoeffS (rotAngle u.rot) ^ 2 + twistCoeffC (rotAngle u.rot) ^ 2),
   rotAngle u.rot⟩

/-- C4: for every Twist of bounded magnitude (angular component in the
principal interval from minus pi exclusive to pi inclusive), applying the
exponential map and then the logarithmic map returns the twist exactly —
hence within any floating tolerance — including at and near zero angular
rate, where the sin(dtheta)/dtheta and (1-cos(dtheta))/dtheta coefficients
take their analytic limiting values 1 and 0 instead of being computed by
division, so no division by the vanishing angular rate occurs. -/
theorem twist_log_exp_roundtrip (t : Twist2d)
    (h1 : -Real.pi < t.dtheta) (h2 : t.dtheta ≤ Real.pi) :
    twistLog (twistExp t) = t := by
  have hθ : rotAngle (twistExp t).rot = t.dtheta := by
    show rotAngle (rotOfAngle t.dtheta) = t.dtheta
    simp only [rotAngle, rotOfAngle]
    rw [Complex.ofReal_cos, Complex.ofReal_sin]
    exact Complex.arg_cos_add_sin_mul_I ⟨h1, h2⟩
  have hd : twistCoeffS t.dtheta ^ 2 + twistCoeffC t.dtheta ^ 2 ≠ 0 := by
    by_cases h0 : t.dtheta = 0
    · rw [twistCoeffS, twistCoeffC, if_pos h0, if_pos h0]
      norm_num
    · rw [twistCoeffS, twistCoeffC, if_neg h0, if_neg h0]
      have hcos : Real.cos t.dtheta ≠ 1 := by
        intro hcc
        refine h0 ?_
        refine (Real.cos_eq_one_iff_of_lt_of_lt ?_ ?_).mp hcc
        · have := Real.pi_pos
          linarith
        · have := Real.pi_pos
          linarith
      intro hzero
      have hc2 : ((1 - Real.cos t.dtheta) / t.dtheta) ^ 2 = 0 := by
        nlinarith [sq_nonneg (Real.sin t.dtheta / t.dtheta),
          sq_nonneg ((1 - Real.cos t.dtheta) / t.dtheta)]
      have hc0 : (1 - Real.cos t.dtheta) / t.dtheta = 0 :=
        (pow_eq_zero_iff (by norm_num)).mp hc2
      rcases div_eq_zero_iff.mp hc0 with h | h
      · exact hcos (by linarith)
      · exact h0 h
  refine Twist2d_ext ?_ ?_ ?_
  · show (twistCoeffS (rotAngle (twistExp t).rot) * (twistExp t).pos.1 +
        twistCoeffC (rotAngle (twistExp t).rot) * (twistExp t).pos.2) /
        (twistCoeffS (rotAngle (twistExp t).rot) ^ 2 +
          twistCoeffC (rotAngle (twistExp t).rot) ^ 2) = t.dx
    rw [hθ]
    show (twistCoeffS t.dtheta *
        (t.dx * twistCoeffS t.dtheta - t.dy * twistCoeffC t.dtheta) +
        twistCoeffC t.dtheta *
        (t.dx * twistCoeffC t.dtheta + t.dy * twistCoeffS t.dtheta)) /
        (twistCoeffS t.dtheta ^ 2 + twistCoeffC t.dtheta ^ 2) = t.dx
    rw [div_eq_iff hd]
    ring
  · show (-(twistCoeffC (rotAngle (twistExp t).rot)) * (twistExp t).pos.1 +
        twistCoeffS (rotAngle (twistExp t).rot) * (twistExp t).pos.2) /
        (twistCoeffS (rotAngle (twistExp t).rot) ^ 2 +
          twistCoeffC (rotAngle (twistExp t).rot) ^ 2) = t.dy
    rw [hθ]
    show (-(twistCoeffC t.dtheta) *
        (t.dx * twistCoeffS t.dtheta - t.dy * twistCoeffC t.dtheta) +
        twistCoeffS t.dtheta *
        (t.dx * twistCoeffC t.dtheta + t.dy * twistCoeffS t.dtheta)) /
        (twistCoeffS t.dtheta ^ 2 + twistCoeffC t.dtheta ^ 2) = t.dy
    rw [div_eq_iff hd]
    ring
  · exact hθ

/-- Witness for C4: the round trip at the concrete twist (1, 2, 0), whose
angular component is exactly zero, exercising the limiting branch. -/
theorem twist_log_exp_roundtrip_witness :
    (-Real.pi < (0 : ℝ) ∧ (0 : ℝ) ≤ Real.pi) ∧
    twistLog (twistExp ⟨1, 2, 0⟩) = ⟨1, 2, 0⟩ := by
  have h1 : -Real.pi < (0 : ℝ) := by linarith [Real.pi_pos]
  have h2 : (0 : ℝ) ≤ Real.pi := le_of_lt Real.pi_pos
  exact ⟨⟨h1, h2⟩, twist_log_exp_roundtrip ⟨1, 2, 0⟩ h1 h2⟩

/-- Modelled from the spec: Chassis Speeds — a twist interpreted as the whole
body's commanded or measured velocity (vx, vy, omega). -/
structure ChassisSpeeds where
  vx : ℝ
  vy : ℝ
  omega : ℝ

@[ext] theorem ChassisSpeeds_ext {a b : ChassisSpeeds}
    (hx : a.vx = b.vx) (hy : a.vy = b.vy) (hw : a.omega = b.omega) : a = b := by
  cases a; cases b; simp_all

/-- Modelled from the spec: a Module State — (speed, steering Rotation) for
one of the N fixed-position actuated wheel modules. -/
structure SwerveModuleState where
  speed : ℝ
  angle : Rotation2d

theorem sumsq_pos_of_ne_zero (v : ℝ × ℝ) (h : v ≠ (0, 0)) :
    0 < v.1 ^ 2 + v.2 ^ 2 := by
  rcases v with ⟨a, b⟩
  rcases eq_or_lt_of_le (add_nonneg (sq_nonneg a) (sq_nonneg b)) with heq | hlt
  · exfalso
    have hx : a ^ 2 = 0 := by
      have ha := sq_nonneg a
      have hb := sq_nonneg b
      linarith
    have hy : b ^ 2 = 0 := by
      have ha := sq_nonneg a
      have hb := sq_nonneg b
      linarith
    have hx0 : a = 0 := (pow_eq_zero_iff (by norm_num)).mp hx
    have hy0 : b = 0 := (pow_eq_zero_iff (by norm_num)).mp hy
    exact h (by rw [hx0, hy0])
  · exact hlt

/-- Euclidean norm of a planar vector. -/
noncomputable def vnorm (v : ℝ × ℝ) : ℝ := Real.sqrt (v.1 ^ 2 + v.2 ^ 2)

theorem vnorm_sq (v : ℝ × ℝ) : vnorm v ^ 2 = v.1 ^ 2 + v.2 ^ 2 :=
  Real.sq_sqrt (by positivity)

/-- Modelled from the spec: the velocity vector a chassis velocity demands of
the module at the given offset from the body center: the chassis linear
velocity plus the cross term from angular velocity and that offset. -/
def moduleVelocity (off : ℝ × ℝ) (c : ChassisSpeeds) : ℝ × ℝ :=
  (c.vx - c.omega * off.2, c.vy + c.omega * off.1)

/-- Modelled from the spec: the module state for a resultant velocity vector:
speed is the magnitude and the reported angle is the direction of the
resultant (the angle is left at the identity placeholder when the resultant
is exactly zero, where the direction is undefined). -/
noncomputable def stateOfVector (v : ℝ × ℝ) : SwerveModuleState :=
  if h : v = (0, 0) then ⟨0, rotId⟩
  else
    ⟨vnorm v,
     ⟨v.1 / vnorm v, v.2 / vnorm v, by
       have hp : 0 < v.1 ^ 2 + v.2 ^ 2 := sumsq_pos_of_ne_zero v h
       rw [div_pow, div_pow, div_add_div_same, vnorm_sq]
       exact div_self (ne_of_gt hp)⟩⟩

/-- Modelled from the spec: the velocity vector a module state denotes:
speed times the unit heading vector. -/
def vectorOfState (s : SwerveModuleState) : ℝ × ℝ :=
  (s.speed * s.angle.cos, s.speed * s.angle.sin)

theorem vectorOfState_stateOfVector (v : ℝ × ℝ) :
    vectorOfState (stateOfVector v) = v := by
  by_cases h : v = (0, 0)
  · rw [stateOfVector, dif_pos h, h]
    simp [vectorOfState]
  · have hp : 0 < v.1 ^ 2 + v.2 ^ 2 := sumsq_pos_of_ne_zero v h
    have hn : vnorm v ≠ 0 := by
      intro h0
      have := vnorm_sq v
      rw [h0] at this
      norm_num at this
      linarith
    rw [stateOfVector, dif_neg h]
    simp only [vectorOfState]
    rcases v with ⟨a, b⟩
    simp only
    rw [mul_div_cancel₀ _ hn, mul_div_cancel₀ _ hn]

/-- Modelled from the spec: inverse kinematics — Chassis Speeds to the list
of per-module states, one per module offset. -/
noncomputable def toSwerveModuleStates (offsets : List (ℝ × ℝ))
    (c : ChassisSpeeds) : List SwerveModuleState :=
  offsets.map fun off => stateOfVector (moduleVelocity off c)

/-- Modelled from the spec: the fixed 3-by-3 normal matrix of the
overdetermined 2N-by-3 per-module geometry system (the product of the
transposed geometry matrix with itself); it depends only on the module
offsets and is precomputable at construction. -/
def kinNormalMatrix (offsets : List (ℝ × ℝ)) : Matrix (Fin 3) (Fin 3) ℝ :=
  !![(offsets.length : ℝ), 0, -((offsets.map Prod.snd).sum);
     0, (offsets.length : ℝ), (offsets.map Prod.fst).sum;
     -((offsets.map Prod.snd).sum), (offsets.map Prod.fst).sum,
       (offsets.map fun o => o.1 ^ 2 + o.2 ^ 2).sum]

/-- Modelled from the spec: forward kinematics — module states to one
Chassis Speeds, as the least-squares solution of the overdetermined linear
system built from the per-module geometry, computed through the normal
equations (the pseudo-inverse of the fixed geometry matrix). -/
noncomputable def toChassisSpeeds (offsets : List (ℝ × ℝ))
    (states : List SwerveModuleState) : ChassisSpeeds :=
  let vs := states.map vectorOfState
  let b : Fin 3 → ℝ :=
    ![(vs.map Prod.fst).sum, (vs.map Prod.snd).sum,
      ((offsets.zip vs).map fun p => -p.1.2 * p.2.1 + p.1.1 * p.2.2).sum]
  let x := (kinNormalMatrix offsets)⁻¹.mulVec b
  ⟨x 0, x 1, x 2⟩

theorem sum_fst_moduleVelocity (offsets : List (ℝ × ℝ)) (c : ChassisSpeeds) :
    ((offsets.map fun off => moduleVelocity off c).map Prod.fst).sum
      = (offsets.length : ℝ) * c.vx - ((offsets.map Prod.snd).sum) * c.omega := by
  induction offsets with
  | nil => simp
  | cons o l ih =>
      rw [List.map_cons, List.map_cons, List.sum_cons, ih]
      simp only [moduleVelocity, List.length_cons, List.map_cons, List.sum_cons]
      push_cast
      ring

theorem sum_snd_moduleVelocity (offsets : List (ℝ × ℝ)) (c : ChassisSpeeds) :
    ((offsets.map fun off => moduleVelocity off c).map Prod.snd).sum
      = (offsets.length : ℝ) * c.vy + ((offsets.map Prod.fst).sum) * c.omega := by
  induction offsets with
  | nil => simp
  | cons o l ih =>
      rw [List.map_cons, List.map_cons, List.sum_cons, ih]
      simp only [moduleVelocity, List.length_cons, List.map_cons, List.sum_cons]
      push_cast
      ring

theorem sum_cross_moduleVelocity (offsets : List (ℝ × ℝ)) (c : ChassisSpeeds) :
    ((offsets.zip (offsets.map fun off => moduleVelocity off c)).map
        fun p => -p.1.2 * p.2.1 + p.1.1 * p.2.2).sum
      = -((offsets.map Prod.snd).sum) * c.vx + ((offsets.map Prod.fst).sum) * c.vy
        + ((offsets.map fun o => o.1 ^ 2 + o.2 ^ 2).sum) * c.omega := by
  induction offsets with
  | nil => simp
  | cons o l ih =>
      rw [List.map_cons, List.zip_cons_cons, List.map_cons, List.sum_cons, ih]
      simp only [moduleVelocity, List.map_cons, List.sum_cons]
      ring

/-- C7: for every Chassis Speeds c, applying inverse kinematics to obtain the
per-module states and then forward kinematics to those states returns c
exactly (hence within any floating tolerance), whenever the module layout's
normal matrix is invertible (which holds for every layout whose geometry
matrix has full column rank, e.g. the four-module square layout of the test). -/
theorem forward_inverse_kinematics_roundtrip (offsets : List (ℝ × ℝ))
    (c : ChassisSpeeds) (hdet : IsUnit (kinNormalMatrix offsets).det) :
    toChassisSpeeds offsets (toSwerveModuleStates offsets c) = c := by
  have hvs : (toSwerveModuleStates offsets c).map vectorOfState
      = offsets.map fun off => moduleVelocity off c := by
    rw [toSwerveModuleStates, List.map_map]
    refine List.map_congr_left ?_
    intro off _
    exact vectorOfState_stateOfVector (moduleVelocity off c)
  have hAv : (kinNormalMatrix offsets).mulVec ![c.vx, c.vy, c.omega]
      = ![(offsets.length : ℝ) * c.vx - ((offsets.map Prod.snd).sum) * c.omega,
          (offsets.length : ℝ) * c.vy + ((offsets.map Prod.fst).sum) * c.omega,
          -((offsets.map Prod.snd).sum) * c.vx
            + ((offsets.map Prod.fst).sum) * c.vy
            + ((offsets.map fun o => o.1 ^ 2 + o.2 ^ 2).sum) * c.omega] := by
    funext i
    fin_cases i <;>
      · simp [Matrix.mulVec, Matrix.dotProduct, Fin.sum_univ_three,
          kinNormalMatrix]
        try ring
  have hb :
      (![(((offsets.map fun off => moduleVelocity off c).map Prod.fst).sum),
         (((offsets.map fun off => moduleVelocity off c).map Prod.snd).sum),
         (((offsets.zip (offsets.map fun off => moduleVelocity off c)).map
             fun p => -p.1.2 * p.2.1 + p.1.1 * p.2.2).sum)] : Fin 3 → ℝ)
        = (kinNormalMatrix offsets).mulVec ![c.vx, c.vy, c.omega] := by
    rw [hAv]
    funext i
    fin_cases i
    · simpa using sum_fst_moduleVelocity offsets c
    · simpa using sum_snd_moduleVelocity offsets c
    · simpa using sum_cross_moduleVelocity offsets c
  simp only [toChassisSpeeds, hvs]
  rw [hb, Matrix.mulVec_mulVec, Matrix.nonsing_inv_mul _ hdet,
    Matrix.one_mulVec]
  refine ChassisSpeeds_ext ?_ ?_ ?_ <;> simp

/-- Witness for C7: the round trip at the four-module square layout used by
the estimator accuracy test, with chassis speeds (2, 3, 1); the layout's
normal matrix is diagonal (4, 4, 8) and invertible. -/
theorem forward_inverse_kinematics_roundtrip_witness :
    IsUnit (kinNormalMatrix [(1, 1), (1, -1), (-1, -1), (-1, 1)]).det ∧
    toChassisSpeeds [(1, 1), (1, -1), (-1, -1), (-1, 1)]
        (toSwerveModuleStates [(1, 1), (1, -1), (-1, -1), (-1, 1)] ⟨2, 3, 1⟩)
      = ⟨2, 3, 1⟩ := by
  have hdet : IsUnit
      (kinNormalMatrix [(1, 1), (1, -1), (-1, -1), (-1, 1)]).det := by
    have h : (kinNormalMatrix [(1, 1), (1, -1), (-1, -1), (-1, 1)]).det
        = 128 := by
      simp [kinNormalMatrix, Matrix.det_fin_three]
      norm_num
    rw [h]
    exact isUnit_iff_ne_zero.mpr (by norm_num)
  exact ⟨hdet,
    forward_inverse_kinematics_roundtrip [(1, 1), (1, -1), (-1, -1), (-1, 1)]
      ⟨2, 3, 1⟩ hdet⟩

/-- Embedded from GenericHID.java: the RumbleType enum — the DS supports a
left rumble and a right rumble value. -/
inductive RumbleType
  | kLeftRumble
  | kRightRumble
deriving DecidableEq

/-- Embedded from GenericHID.java: the output state of one HID device that
setOutput/setOutputs/setRumble maintain and hand to HAL.setJoystickOutputs:
the 32-bit outputs word (kept as its unsigned bit pattern) and the two stored
16-bit rumble values (as Java short values). -/
structure HIDState where
  outputs : ℕ
  leftRumble : ℤ
  rightRumble : ℤ
deriving DecidableEq

/-- Java double-to-long narrowing: truncation toward zero (the rumble product
is in [0, 65535], far within the long range, so no saturation applies). -/
def truncToInt (q : ℚ) : ℤ := if q < 0 then -((-q).floor) else q.floor

/-- Java long-to-short narrowing: keep the low 16 bits, two's complement. -/
def toShort (n : ℤ) : ℤ := (n + 2 ^ 15) % 2 ^ 16 - 2 ^ 15

/-- Embedded from GenericHID.setRumble (GenericHID.java lines 271-283): clamp
the input to [0, 1], scale by 65535, narrow to short, and store into the left
or right rumble slot; the outputs word is not touched. -/
def setRumble (st : HIDState) (ty : RumbleType) (value : ℚ) : HIDState :=
  let v := if value < 0 then 0 else if value > 1 then 1 else value
  let r := toShort (truncToInt (v * 65535))
  match ty with
  | RumbleType.kLeftRumble => { st with leftRumble := r }
  | RumbleType.kRightRumble => { st with rightRumble := r }

/-- C8: for every setRumble call, the value actually applied is the input
clamped to [0, 1] before scaling: any input below 0 produces exactly the same
state as input 0, any input above 1 exactly the same as input 1, and in
general the call behaves as if the input had been replaced by its clamp to
[0, 1]. -/
theorem setRumble_clamps :
    (∀ (st : HIDState) (ty : RumbleType) (v : ℚ), v < 0 →
      setRumble st ty v = setRumble st ty 0) ∧
    (∀ (st : HIDState) (ty : RumbleType) (v : ℚ), 1 < v →
      setRumble st ty v = setRumble st ty 1) ∧
    (∀ (st : HIDState) (ty : RumbleType) (v : ℚ),
      setRumble st ty v = setRumble st ty (max 0 (min v 1))) := by
  have key : ∀ (st : HIDState) (ty : RumbleType) (v w : ℚ),
      (if v < 0 then 0 else if v > 1 then 1 else v)
        = (if w < 0 then 0 else if w > 1 then 1 else w) →
      setRumble st ty v = setRumble st ty w := by
    intro st ty v w h
    cases ty <;> simp only [setRumble] <;> rw [h]
  refine ⟨?_, ?_, ?_⟩
  · intro st ty v hv
    refine key st ty v 0 ?_
    norm_num [hv]
  · intro st ty v hv
    refine key st ty v 1 ?_
    norm_num [hv, not_lt_of_ge (by linarith : (0 : ℚ) ≤ v)]
  · intro st ty v
    refine key st ty v (max 0 (min v 1)) ?_
    rcases lt_or_ge v 0 with h0 | h0
    · rw [min_eq_left (by linarith), max_eq_left (by linarith)]
      norm_num [h0]
    · rcases le_or_lt v 1 with h2 | h2
      · rw [min_eq_left h2, max_eq_right h0]
      · rw [min_eq_right (by linarith), max_eq_right (by norm_num)]
        norm_num [not_lt_of_ge h0, h2]

/-- Witness for C8: a below-range and an above-range call on a concrete
state, equal to the clamped calls. -/
theorem setRumble_clamps_witness :
    ((-1 : ℚ) < 0 ∧
      setRumble ⟨0, 0, 0⟩ RumbleType.kLeftRumble (-1)
        = setRumble ⟨0, 0, 0⟩ RumbleType.kLeftRumble 0) ∧
    ((1 : ℚ) < 2 ∧
      setRumble ⟨0, 0, 0⟩ RumbleType.kRightRumble 2
        = setRumble ⟨0, 0, 0⟩ RumbleType.kRightRumble 1) :=
  ⟨⟨by norm_num, setRumble_clamps.1 _ _ _ (by norm_num)⟩,
   ⟨by norm_num, setRumble_clamps.2.1 _ _ _ (by norm_num)⟩⟩

/-- Embedded from GenericHID.setOutput (GenericHID.java lines 249-252): clear
then set bit outputNumber-1 of the 32-bit outputs word; the Java bitwise
complement of 1 shifted left is taken within 32 bits (xor against the
all-ones word), and the stored rumble values are passed to HAL unchanged. -/
def setOutput (st : HIDState) (outputNumber : ℕ) (value : Bool) : HIDState :=
  { st with outputs :=
      (st.outputs &&& ((2 ^ 32 - 1) ^^^ (1 <<< (outputNumber - 1)))) |||
        ((if value then 1 else 0) <<< (outputNumber - 1)) }

/-- C9: for every output index n in 1..32 and boolean v, setOutput n v sets
bit n-1 of the 32-bit outputs word to v and leaves every other bit of the
word and both stored rumble values unchanged (given the word's 32-bit
invariant). -/
theorem setOutput_affects_only_its_bit (st : HIDState) (n : ℕ) (v : Bool)
    (h1 : 1 ≤ n) (h2 : n ≤ 32) (hout : st.outputs < 2 ^ 32) :
    ((setOutput st n v).outputs.testBit (n - 1) = v) ∧
    (∀ j, j ≠ n - 1 →
      (setOutput st n v).outputs.testBit j = st.outputs.testBit j) ∧
    (setOutput st n v).leftRumble = st.leftRumble ∧
    (setOutput st n v).rightRumble = st.rightRumble := by
  have hk : n - 1 < 32 := by omega
  have hone : (if v then (1 : ℕ) else 0) = v.toNat := by cases v <;> rfl
  refine ⟨?_, ?_, rfl, rfl⟩
  · show ((st.outputs &&& ((2 ^ 32 - 1) ^^^ (1 <<< (n - 1)))) |||
        ((if v then 1 else 0) <<< (n - 1))).testBit (n - 1) = v
    rw [hone, Nat.one_shiftLeft, Nat.testBit_or, Nat.testBit_and,
      Nat.testBit_xor, Nat.testBit_two_pow_sub_one, Nat.testBit_two_pow,
      Nat.testBit_shiftLeft]
    simp [hk]
    cases v <;> rfl
  · intro j hj
    show ((st.outputs &&& ((2 ^ 32 - 1) ^^^ (1 <<< (n - 1)))) |||
        ((if v then 1 else 0) <<< (n - 1))).testBit j = st.outputs.testBit j
    rw [hone, Nat.one_shiftLeft]
    have hBfalse : Nat.testBit (v.toNat <<< (n - 1)) j = false := by
      rw [Nat.testBit_shiftLeft, Nat.testBit_bool_to_nat]
      rcases Nat.lt_or_ge j (n - 1) with hlt | hge
      · simp [show ¬ (n - 1 ≤ j) from by omega]
      · simp [show ¬ (j - (n - 1) = 0) from by omega]
    have hXor : Nat.testBit ((2 ^ 32 - 1) ^^^ 2 ^ (n - 1)) j
        = decide (j < 32) := by
      rw [Nat.testBit_xor, Nat.testBit_two_pow_sub_one, Nat.testBit_two_pow]
      simp [show ¬ (n - 1 = j) from fun hc => hj hc.symm]
    rw [Nat.testBit_or, Nat.testBit_and, hXor, hBfalse]
    rcases Nat.lt_or_ge j 32 with hj32 | hj32
    · simp [hj32]
    · have h0 : st.outputs.testBit j = false :=
        Nat.testBit_lt_two_pow
          (lt_of_lt_of_le hout (Nat.pow_le_pow_right (by norm_num) hj32))
      simp [h0, show ¬ (j < 32) from by omega]

/-- Witness for C9: setting output 3 to true on a concrete state with
outputs word 5 sets bit 2 and leaves bit 0 as it was. -/
theorem setOutput_affects_only_its_bit_witness :
    ((1 : ℕ) ≤ 3 ∧ (3 : ℕ) ≤ 32 ∧ (5 : ℕ) < 2 ^ 32) ∧
    ((setOutput ⟨5, 7, 9⟩ 3 true).outputs.testBit 2 = true) ∧
    ((setOutput ⟨5, 7, 9⟩ 3 true).outputs.testBit 0
      = (5 : ℕ).testBit 0) :=
  ⟨by norm_num,
   (setOutput_affects_only_its_bit ⟨5, 7, 9⟩ 3 true (by norm_num)
      (by norm_num) (by norm_num)).1,
   (setOutput_affects_only_its_bit ⟨5, 7, 9⟩ 3 true (by norm_num)
      (by norm_num) (by norm_num)).2.1 0 (by norm_num)⟩

/-- Embedded from WrapperCommand.cpp and the command framework interface it
implements: a command is its lifecycle operations acting on an abstract
robot-world state, together with the grouped flag maintained by
SetGrouped/RequireUngrouped. Init, Execute, IsFinished, End and
RunsWhenDisabled stand for the Initialize/Execute/IsFinished/End(interrupted)
/RunsWhenDisabled virtuals. -/
structure Command (σ : Type) where
  grouped : Bool
  Init : σ → σ
  Execute : σ → σ
  IsFinished : σ → Bool
  End : Bool → σ → σ
  RunsWhenDisabled : Bool

/-- Embedded from WrapperCommand.cpp line 10: CommandGroupBase.RequireUngrouped
passes exactly when the command is not already grouped. -/
def RequireUngrouped {σ : Type} (c : Command σ) : Bool := !c.grouped

/-- Embedded from WrapperCommand.cpp lines 9-35: the constructor takes
ownership of the command only when the ungrouped check passes, marking the
wrapped command grouped; each lifecycle operation of the wrapper then calls
the corresponding operation of the wrapped command and returns its result.
When the check fails the wrapper holds no command (modelled as none). -/
def wrapperCommand {σ : Type} (c : Command σ) : Option (Command σ) :=
  if RequireUngrouped c then
    some { grouped := true,
           Init := c.Init, Execute := c.Execute, IsFinished := c.IsFinished,
           End := c.End, RunsWhenDisabled := c.RunsWhenDisabled }
  else none

/-- C10: for every command that passes the ungrouped check in the
WrapperCommand constructor, each lifecycle operation of the wrapper —
Initialize, Execute, IsFinished, End with its interrupted flag, and
RunsWhenDisabled — performs exactly the corresponding operation of the
wrapped command and returns its result unchanged. -/
theorem wrapperCommand_delegates {σ : Type} (c w : Command σ)
    (h : wrapperCommand c = some w) :
    (∀ s, w.Init s = c.Init s) ∧
    (∀ s, w.Execute s = c.Execute s) ∧
    (∀ s, w.IsFinished s = c.IsFinished s) ∧
    (∀ (interrupted : Bool) s, w.End interrupted s = c.End interrupted s) ∧
    w.RunsWhenDisabled = c.RunsWhenDisabled := by
  rw [wrapperCommand] at h
  by_cases hg : RequireUngrouped c
  · rw [if_pos hg] at h
    injection h with h
    subst h
    exact ⟨fun _ => rfl, fun _ => rfl, fun _ => rfl, fun _ _ => rfl, rfl⟩
  · rw [if_neg hg] at h
    exact Option.noConfusion h

/-- Witness for C10: a concrete ungrouped command over the state type of
natural numbers; its wrapper exists and Initialize delegates at state 5. -/
theorem wrapperCommand_delegates_witness :
    wrapperCommand (σ := ℕ) ⟨false, id, id, fun _ => true, fun _ => id, false⟩
        = some ⟨true, id, id, fun _ => true, fun _ => id, false⟩ ∧
    (⟨true, id, id, fun _ => true, fun _ => id, false⟩ : Command ℕ).Init 5
      = (⟨false, id, id, fun _ => true, fun _ => id, false⟩ : Command ℕ).Init 5 :=
  ⟨rfl, (wrapperCommand_delegates (σ := ℕ)
      ⟨false, id, id, fun _ => true, fun _ => id, false⟩
      ⟨true, id, id, fun _ => true, fun _ => id, false⟩ rfl).1 5⟩

/-- Modelled from the spec: a Pose Sample in the estimator's history buffer —
(timestamp, fused Pose, accumulated odometry-only Pose at that time). -/
structure PoseSample where
  t : ℚ
  fused : Pose2d
  odo : Pose2d

/-- Modelled from the spec: the Pose Estimator state — the reset pose (the
current estimate while the buffer is empty and the seed of odometry
integration), the per-dimension correction gains for (x, y, heading), the
retention window of the history buffer, and the chronological history buffer
itself (oldest sample first). -/
structure PoseEstimator where
  base : Pose2d
  gains : ℝ × ℝ × ℝ
  retention : ℚ
  buffer : List PoseSample

/-- Linear interpolation between two reals. -/
def lerp (a b s : ℝ) : ℝ := a + (b - a) * s

/-- Modelled from the spec: shortest-arc interpolation between two headings,
carried out through the Rotation vector form (rotate the first heading by the
scaled relative angle), never by interpolating raw angles across a wrap. -/
noncomputable def slerpRot (r1 r2 : Rotation2d) (s : ℝ) : Rotation2d :=
  rotMul r1 (rotOfAngle (s * rotAngle (rotMul (rotInv r1) r2)))

/-- Modelled from the spec: interpolation between two poses — position
linear, heading shortest-arc. -/
noncomputable def interpPose (p q : Pose2d) (s : ℝ) : Pose2d :=
  ⟨(lerp p.pos.1 q.pos.1 s, lerp p.pos.2 q.pos.2 s), slerpRot p.rot q.rot s⟩

/-- Modelled from the spec: locate the bracketing samples around a timestamp
in the buffer and interpolate, returning the (fused, odometry-only) pose pair
that existed at that instant. A timestamp meeting a sample exactly uses that
sample; a timestamp at or past the newest sample uses the newest sample; a
timestamp before the oldest sample has no causal placement (none). -/
noncomputable def sampleAt (buf : List PoseSample) (time : ℚ) :
    Option (Pose2d × Pose2d) :=
  match (buf.filter fun s => s.t ≤ time).getLast? with
  | none => none
  | some lo =>
      match (buf.filter fun s => time < s.t).head? with
      | none => some (lo.fused, lo.odo)
      | some hi =>
          if lo.t = time then some (lo.fused, lo.odo)
          else
            let s : ℝ := ((time : ℝ) - (lo.t : ℝ)) / ((hi.t : ℝ) - (lo.t : ℝ))
            some (interpPose lo.fused hi.fused s, interpPose lo.odo hi.odo s)

/-- Modelled from the spec: the replay step — walking the samples in
chronological order, recompute each fused Pose by re-applying the
odometry-only Transform delta from the previous point's odometry pose to this
sample's odometry pose, starting from the corrected anchor; timestamps and
odometry poses are untouched. -/
noncomputable def replayFrom (prevFused prevOdo : Pose2d) :
    List PoseSample → List PoseSample
  | [] => []
  | s :: rest =>
      let f := poseTransformBy prevFused (transformFromTo prevOdo s.odo)
      ⟨s.t, f, s.odo⟩ :: replayFrom f s.odo rest

/-- Modelled from the spec: the current best estimate, derivable at any time:
the fused pose of the newest sample, or the reset pose while the buffer is
empty. -/
def estimate (st : PoseEstimator) : Pose2d :=
  match st.buffer.getLast? with
  | some s => s.fused
  | none => st.base

/-- Modelled from the spec: Advance — feed the odometry integrator (whose
resulting accumulated odometry pose for this tick is taken as input here),
carry the fused pose forward by the same odometry-only delta so it tracks
odometry one-to-one between corrections, append the new Pose Sample, and
evict samples older than the retention window relative to this timestamp. -/
noncomputable def Advance (st : PoseEstimator) (time : ℚ) (newOdo : Pose2d) :
    PoseEstimator :=
  let prev :=
    match st.buffer.getLast? with
    | some s => (s.fused, s.odo)
    | none => (st.base, st.base)
  let f := poseTransformBy prev.1 (transformFromTo prev.2 newOdo)
  { st with buffer :=
      ((st.buffer ++ [({ t := time, fused := f, odo := newOdo } : PoseSample)]).filter
        (fun s => time - st.retention ≤ s.t)) }

/-- Modelled from the spec: the accepted-measurement path of Fuse — given
the interpolated (fused, odometry-only) pose pair at the measurement
timestamp, express the transform from the interpolated odometry-only pose to
the measurement as (dx, dy, dtheta), scale each component by its gain to a
bounded correction twist, apply the correction to the interpolated fused pose
to obtain the corrected anchor, and replay every sample from the timestamp on
from that anchor by re-applying the recorded odometry-only deltas. -/
noncomputable def fuseCorrect (st : PoseEstimator) (m : Pose2d) (time : ℚ)
    (sAt : Pose2d × Pose2d) : PoseEstimator :=
  let d := transformFromTo sAt.2 m
  let corr : Transform2d :=
    ⟨(st.gains.1 * d.pos.1, st.gains.2.1 * d.pos.2),
     rotOfAngle (st.gains.2.2 * rotAngle d.rot)⟩
  let anchor := poseTransformBy sAt.1 corr
  { st with buffer :=
      ((st.buffer.filter (fun s => s.t < time)) ++
        replayFrom anchor sAt.2
          (st.buffer.filter (fun s => time ≤ s.t))) }

/-- Modelled from the spec: Fuse — delayed fusion of an absolute pose
measurement taken at the given (possibly past) timestamp. Reject as a no-op
if the buffer is empty or the timestamp predates the oldest retained sample;
otherwise locate and interpolate the bracketing samples and apply the
gain-weighted correction and replay. -/
noncomputable def Fuse (st : PoseEstimator) (m : Pose2d) (time : ℚ) : PoseEstimator :=
  match st.buffer.head? with
  | none => st
  | some oldest =>
      if time < oldest.t then st
      else
        match sampleAt st.buffer time with
        | none => st
        | some sAt => fuseCorrect st m time sAt

/-- C2: a Fuse call whose timestamp is older than the oldest sample retained
in the history buffer, or that arrives when the buffer is empty, is a
complete no-op: the estimator state is returned unchanged, so the current
fused estimate and every buffer entry are unchanged, and (Fuse being a total
function into estimator states) no error is surfaced to the caller. -/
theorem fuse_stale_noop (st : PoseEstimator) (m : Pose2d) (time : ℚ)
    (h : st.buffer.head? = none ∨
      ∃ oldest, st.buffer.head? = some oldest ∧ time < oldest.t) :
    Fuse st m time = st ∧
    estimate (Fuse st m time) = estimate st ∧
    (Fuse st m time).buffer = st.buffer := by
  have hmain : Fuse st m time = st := by
    rcases h with hnone | ⟨oldest, hsome, hlt⟩
    · rw [Fuse, hnone]
    · rw [Fuse, hsome]
      simp [hlt]
  exact ⟨hmain, by rw [hmain], by rw [hmain]⟩

/-- Concrete one-sample estimator used to exhibit stale-fix rejection. -/
def staleEst : PoseEstimator :=
  ⟨⟨(0, 0), rotId⟩, (1, 1, 1), 10, [⟨1, ⟨(5, 0), rotId⟩, ⟨(5, 0), rotId⟩⟩]⟩

/-- Witness for C2: fusing at time 0 into a buffer whose oldest sample is at
time 1 leaves the estimator unchanged. -/
theorem fuse_stale_noop_witness :
    (staleEst.buffer.head? = some ⟨1, ⟨(5, 0), rotId⟩, ⟨(5, 0), rotId⟩⟩ ∧
      (0 : ℚ) < 1) ∧
    Fuse staleEst ⟨(9, 9), rotId⟩ 0 = staleEst :=
  ⟨⟨rfl, by norm_num⟩,
   (fuse_stale_noop staleEst ⟨(9, 9), rotId⟩ 0
      (Or.inr ⟨⟨1, ⟨(5, 0), rotId⟩, ⟨(5, 0), rotId⟩⟩, rfl, by norm_num⟩)).1⟩

theorem poseTransformBy_transformFromTo (a b : Pose2d) :
    poseTransformBy a (transformFromTo a b) = b := by
  refine Pose2d_ext ?_ ?_
  · show vadd a.pos (rotateBy a.rot (rotateBy (rotInv a.rot) (vsub b.pos a.pos)))
      = b.pos
    rw [rotateBy_inv_cancel]
    simp [vadd, vsub]
  · show rotMul a.rot (rotMul (rotInv a.rot) b.rot) = b.rot
    rw [← rotMul_assoc, rotMul_inv_right, rotMul_id_left]

theorem rotInv_id : rotInv rotId = rotId := by
  refine Rotation2d_ext ?_ ?_ <;> simp [rotInv, rotId]

theorem rotAngle_id : rotAngle rotId = 0 := by
  show Complex.arg (((1 : ℝ) : ℂ) + ((0 : ℝ) : ℂ) * Complex.I) = 0
  have h : ((1 : ℝ) : ℂ) + ((0 : ℝ) : ℂ) * Complex.I = 1 := by
    norm_num
  rw [h, Complex.arg_one]

theorem rotOfAngle_zero : rotOfAngle 0 = rotId := by
  refine Rotation2d_ext ?_ ?_ <;> simp [rotOfAngle, rotId]

theorem transformFromTo_id_rot (a b : ℝ × ℝ) :
    transformFromTo ⟨a, rotId⟩ ⟨b, rotId⟩
      = ⟨(b.1 - a.1, b.2 - a.2), rotId⟩ := by
  refine Transform2d_ext ?_ ?_
  · show rotateBy (rotInv rotId) (vsub b a) = (b.1 - a.1, b.2 - a.2)
    rw [rotInv_id, rotateBy_id]
    rfl
  · show rotMul (rotInv rotId) rotId = rotId
    rw [rotInv_id, rotMul_id_left]

theorem poseTransformBy_id_rot (a u : ℝ × ℝ) :
    poseTransformBy ⟨a, rotId⟩ ⟨u, rotId⟩
      = ⟨(a.1 + u.1, a.2 + u.2), rotId⟩ := by
  refine Pose2d_ext ?_ ?_
  · show vadd a (rotateBy rotId u) = (a.1 + u.1, a.2 + u.2)
    rw [rotateBy_id]
    rfl
  · show rotMul rotId rotId = rotId
    rw [rotMul_id_left]

/-- Pose on the x-axis with identity heading, used by the concrete
out-of-order fusion run. -/
noncomputable def cexP (x : ℝ) : Pose2d := ⟨(x, 0), rotId⟩

/-- Concrete estimator configuration: gains one half in each state dimension,
retention window 10, reset at the origin. -/
noncomputable def cexInit : PoseEstimator := ⟨cexP 0, (1/2, 1/2, 1/2), 10, []⟩

/-- Concrete absolute fix for timestamp 1. -/
noncomputable def cexM1 : Pose2d := ⟨(10, 0), rotId⟩

/-- Concrete absolute fix for timestamp 2. -/
noncomputable def cexM2 : Pose2d := ⟨(20, 0), rotId⟩

/-- Concrete estimator history after three Advance ticks along the x-axis at
times 0, 1, 2. -/
noncomputable def cexSt : PoseEstimator :=
  Advance (Advance (Advance cexInit 0 (cexP 0)) 1 (cexP 1)) 2 (cexP 2)

/-- Counterexample to C3: with Advance history at times 0, 1, 2 and absolute
fixes m1 at t1 = 1 and m2 at t2 = 2 (both inside history), the two call
orders give different final current estimates: fusing m1 then m2 ends at
x = 31/2, while fusing m2 then m1 ends at x = 13/2, because the replay
triggered by the earlier-timestamped fix recomputes every newer sample from
recorded odometry-only deltas and thus discards the later fix's correction. -/
theorem fuse_out_of_order_counterexample :
    (estimate (Fuse (Fuse cexSt cexM1 1) cexM2 2)).pos
        = ((31/2 : ℝ), (0 : ℝ)) ∧
    (estimate (Fuse (Fuse cexSt cexM2 2) cexM1 1)).pos
        = ((13/2 : ℝ), (0 : ℝ)) ∧
    estimate (Fuse (Fuse cexSt cexM1 1) cexM2 2)
      ≠ estimate (Fuse (Fuse cexSt cexM2 2) cexM1 1) := by
  have h1 : Advance cexInit 0 (cexP 0)
      = { cexInit with buffer := [⟨0, cexP 0, cexP 0⟩] } := by
    rw [Advance]
    simp [cexInit, poseTransformBy_transformFromTo]
  have h2 : Advance { cexInit with buffer := [⟨0, cexP 0, cexP 0⟩] } 1 (cexP 1)
      = { cexInit with buffer := [⟨0, cexP 0, cexP 0⟩, ⟨1, cexP 1, cexP 1⟩] } := by
    rw [Advance]
    simp [cexInit, poseTransformBy_transformFromTo]
  have h3 : Advance { cexInit with buffer :=
        [⟨0, cexP 0, cexP 0⟩, ⟨1, cexP 1, cexP 1⟩] } 2 (cexP 2)
      = { cexInit with buffer :=
        [⟨0, cexP 0, cexP 0⟩, ⟨1, cexP 1, cexP 1⟩, ⟨2, cexP 2, cexP 2⟩] } := by
    rw [Advance]
    simp [cexInit, poseTransformBy_transformFromTo]
    norm_num
  have hst : cexSt = { cexInit with buffer :=
      [⟨0, cexP 0, cexP 0⟩, ⟨1, cexP 1, cexP 1⟩, ⟨2, cexP 2, cexP 2⟩] } := by
    rw [cexSt, h1, h2, h3]
  have hA1 : Fuse { cexInit with buffer :=
        [⟨0, cexP 0, cexP 0⟩, ⟨1, cexP 1, cexP 1⟩, ⟨2, cexP 2, cexP 2⟩] } cexM1 1
      = { cexInit with buffer :=
        [⟨0, cexP 0, cexP 0⟩, ⟨1, ⟨(11/2, 0), rotId⟩, cexP 1⟩,
         ⟨2, ⟨(13/2, 0), rotId⟩, cexP 2⟩] } := by
    rw [Fuse]
    simp [cexInit, cexP, cexM1, fuseCorrect, sampleAt, replayFrom, transformFromTo_id_rot,
      poseTransformBy_id_rot, rotAngle_id, rotOfAngle_zero]
    norm_num
  have hA2 : Fuse { cexInit with buffer :=
        [⟨0, cexP 0, cexP 0⟩, ⟨1, ⟨(11/2, 0), rotId⟩, cexP 1⟩,
         ⟨2, ⟨(13/2, 0), rotId⟩, cexP 2⟩] } cexM2 2
      = { cexInit with buffer :=
        [⟨0, cexP 0, cexP 0⟩, ⟨1, ⟨(11/2, 0), rotId⟩, cexP 1⟩,
         ⟨2, ⟨(31/2, 0), rotId⟩, cexP 2⟩] } := by
    rw [Fuse]
    simp [cexInit, cexP, cexM2, fuseCorrect, sampleAt, replayFrom, transformFromTo_id_rot,
      poseTransformBy_id_rot, rotAngle_id, rotOfAngle_zero]
    norm_num
  have hB1 : Fuse { cexInit with buffer :=
        [⟨0, cexP 0, cexP 0⟩, ⟨1, cexP 1, cexP 1⟩, ⟨2, cexP 2, cexP 2⟩] } cexM2 2
      = { cexInit with buffer :=
        [⟨0, cexP 0, cexP 0⟩, ⟨1, cexP 1, cexP 1⟩,
         ⟨2, ⟨(11, 0), rotId⟩, cexP 2⟩] } := by
    rw [Fuse]
    simp [cexInit, cexP, cexM2, fuseCorrect, sampleAt, replayFrom, transformFromTo_id_rot,
      poseTransformBy_id_rot, rotAngle_id, rotOfAngle_zero]
    norm_num
  have hB2 : Fuse { cexInit with buffer :=
        [⟨0, cexP 0, cexP 0⟩, ⟨1, cexP 1, cexP 1⟩,
         ⟨2, ⟨(11, 0), rotId⟩, cexP 2⟩] } cexM1 1
      = { cexInit with buffer :=
        [⟨0, cexP 0, cexP 0⟩, ⟨1, ⟨(11/2, 0), rotId⟩, cexP 1⟩,
         ⟨2, ⟨(13/2, 0), rotId⟩, cexP 2⟩] } := by
    rw [Fuse]
    simp [cexInit, cexP, cexM1, fuseCorrect, sampleAt, replayFrom, transformFromTo_id_rot,
      poseTransformBy_id_rot, rotAngle_id, rotOfAngle_zero]
    norm_num
  have hA : estimate (Fuse (Fuse cexSt cexM1 1) cexM2 2)
      = ⟨((31/2 : ℝ), (0 : ℝ)), rotId⟩ := by
    rw [hst, hA1, hA2]
    simp [estimate]
  have hB : estimate (Fuse (Fuse cexSt cexM2 2) cexM1 1)
      = ⟨((13/2 : ℝ), (0 : ℝ)), rotId⟩ := by
    rw [hst, hB1, hB2]
    simp [estimate]
  refine ⟨by rw [hA], by rw [hB], ?_⟩
  rw [hA, hB]
  intro hcontra
  have hx := congrArg (fun p : Pose2d => p.pos.1) hcontra
  norm_num at hx

/-- Projection of a sample to the data replay never changes: its timestamp
and its odometry-only pose. -/
def sampleKey (s : PoseSample) : ℚ × Pose2d := (s.t, s.odo)

theorem replayFrom_map_key (f o : Pose2d) (l : List PoseSample) :
    (replayFrom f o l).map sampleKey = l.map sampleKey := by
  induction l generalizing f o with
  | nil => rfl
  | cons s rest ih =>
      simp only [replayFrom, List.map_cons, sampleKey]
      rw [ih]

theorem replayFrom_congr_key (f o : Pose2d) (l₁ l₂ : List PoseSample)
    (h : l₁.map sampleKey = l₂.map sampleKey) :
    replayFrom f o l₁ = replayFrom f o l₂ := by
  induction l₁ generalizing f o l₂ with
  | nil =>
      cases l₂ with
      | nil => rfl
      | cons b m => simp at h
  | cons a l ih =>
      cases l₂ with
      | nil => simp at h
      | cons b m =>
          simp only [List.map_cons, List.cons.injEq, sampleKey,
            Prod.mk.injEq] at h
          obtain ⟨⟨ht, ho⟩, htail⟩ := h
          simp only [replayFrom]
          rw [ht, ho, ih _ _ m htail]

theorem replayFrom_time_mem (f o : Pose2d) (l : List PoseSample)
    (x : PoseSample) (hx : x ∈ replayFrom f o l) :
    ∃ y ∈ l, y.t = x.t := by
  have hk : sampleKey x ∈ l.map sampleKey := by
    rw [← replayFrom_map_key f o l]
    exact List.mem_map_of_mem sampleKey hx
  obtain ⟨y, hy, hyk⟩ := List.mem_map.mp hk
  exact ⟨y, hy, congrArg Prod.fst hyk⟩

theorem sorted_filter_split (c : ℚ) (l : List PoseSample)
    (h : l.Pairwise (fun a b => a.t < b.t)) :
    l.filter (fun s => s.t < c) ++ l.filter (fun s => c ≤ s.t) = l := by
  induction l with
  | nil => rfl
  | cons a rest ih =>
      rw [List.pairwise_cons] at h
      obtain ⟨ha, hrest⟩ := h
      by_cases hc : a.t < c
      · rw [List.filter_cons_of_pos (by simpa using hc),
          List.filter_cons_of_neg (by simpa using not_le.mpr hc),
          List.cons_append, ih hrest]
      · have h1 : rest.filter (fun s => s.t < c) = [] := by
          rw [List.filter_eq_nil_iff]
          intro x hx
          have hax := ha x hx
          simp only [decide_eq_true_eq, not_lt]
          exact le_trans (not_lt.mp hc) (le_of_lt hax)
        have h2 : rest.filter (fun s => c ≤ s.t) = rest := by
          rw [List.filter_eq_self]
          intro x hx
          simp only [decide_eq_true_eq]
          exact le_trans (not_lt.mp hc) (le_of_lt (ha x hx))
        rw [List.filter_cons_of_neg (by simpa using hc),
          List.filter_cons_of_pos (by simpa using not_lt.mp hc), h1, h2,
          List.nil_append]

theorem sorted_filter_le_getLast (c : ℚ) (l : List PoseSample)
    (sStar : PoseSample) (h : l.Pairwise (fun a b => a.t < b.t))
    (hmem : sStar ∈ l) (ht : sStar.t = c) :
    (l.filter (fun s => s.t ≤ c)).getLast? = some sStar := by
  induction l with
  | nil => cases hmem
  | cons a rest ih =>
      rw [List.pairwise_cons] at h
      obtain ⟨ha, hrest⟩ := h
      rcases List.mem_cons.mp hmem with rfl | hmem'
      · have h1 : rest.filter (fun s => s.t ≤ c) = [] := by
          rw [List.filter_eq_nil_iff]
          intro x hx
          have hax := ha x hx
          simp only [decide_eq_true_eq, not_le]
          rw [← ht]
          exact hax
        rw [List.filter_cons_of_pos (by simp [ht]), h1]
        rfl
      · have hlt : a.t < c := ht ▸ ha sStar hmem'
        have hne : rest.filter (fun s => s.t ≤ c) ≠ [] := by
          intro h0
          rw [List.filter_eq_nil_iff] at h0
          exact h0 sStar hmem' (by simp [ht])
        rw [List.filter_cons_of_pos (by simp [le_of_lt hlt]),
          List.getLast?_cons, ih hrest hmem', Option.getD_some]

theorem sorted_head_le (l : List PoseSample) (oldest x : PoseSample)
    (h : l.Pairwise (fun a b => a.t < b.t)) (hh : l.head? = some oldest)
    (hx : x ∈ l) : oldest.t ≤ x.t := by
  cases l with
  | nil => cases hx
  | cons a rest =>
      injection hh with hh
      subst hh
      rcases List.mem_cons.mp hx with rfl | hx'
      · exact le_refl _
      · rw [List.pairwise_cons] at h
        exact le_of_lt (h.1 x hx')

theorem sampleAt_exact (l : List PoseSample) (c : ℚ) (lo : PoseSample)
    (hlast : (l.filter (fun s => s.t ≤ c)).getLast? = some lo)
    (ht : lo.t = c) :
    sampleAt l c = some (lo.fused, lo.odo) := by
  simp only [sampleAt]
  rw [hlast]
  cases hhi : (l.filter (fun s => c < s.t)).head? with
  | none => rfl
  | some hi => simp [ht]

theorem filter_lt_filter_lt (l : List PoseSample) (c d : ℚ) (hcd : c ≤ d) :
    (l.filter (fun s => s.t < d)).filter (fun s => s.t < c)
      = l.filter (fun s => s.t < c) := by
  rw [List.filter_filter]
  refine List.filter_congr ?_
  intro a _
  by_cases h : a.t < c
  · simp [h, lt_of_lt_of_le h hcd]
  · simp [h]

theorem filter_le_filter_lt (l : List PoseSample) (c d : ℚ) (hcd : c < d) :
    (l.filter (fun s => s.t < d)).filter (fun s => s.t ≤ c)
      = l.filter (fun s => s.t ≤ c) := by
  rw [List.filter_filter]
  refine List.filter_congr ?_
  intro a _
  by_cases h : a.t ≤ c
  · simp [h, lt_of_le_of_lt h hcd]
  · simp [h]

theorem filter_le_filter_le (l : List PoseSample) (c d : ℚ) (hcd : c ≤ d) :
    (l.filter (fun s => d ≤ s.t)).filter (fun s => c ≤ s.t)
      = l.filter (fun s => d ≤ s.t) := by
  rw [List.filter_eq_self]
  intro x hx
  have hdx : d ≤ x.t := by
    have := (List.mem_filter.mp hx).2
    simpa using this
  simpa using le_trans hcd hdx

theorem filter_replay_below (f o : Pose2d) (l : List PoseSample) (d : ℚ)
    (p : ℚ → Prop) [DecidablePred p]
    (hp : ∀ x : ℚ, p x → x < d) :
    (replayFrom f o (l.filter (fun s => d ≤ s.t))).filter
      (fun s => p s.t) = [] := by
  rw [List.filter_eq_nil_iff]
  intro x hx
  obtain ⟨y, hy, hyt⟩ := replayFrom_time_mem _ _ _ _ hx
  have hdy : d ≤ y.t := by
    have := (List.mem_filter.mp hy).2
    simpa using this
  simp only [decide_eq_true_eq]
  intro hpx
  have := hp _ hpx
  rw [← hyt] at this
  exact absurd this (not_lt.mpr hdy)

theorem filter_replay_keep (f o : Pose2d) (l : List PoseSample) (c d : ℚ)
    (hcd : c ≤ d) :
    (replayFrom f o (l.filter (fun s => d ≤ s.t))).filter
        (fun s => c ≤ s.t)
      = replayFrom f o (l.filter (fun s => d ≤ s.t)) := by
  rw [List.filter_eq_self]
  intro x hx
  obtain ⟨y, hy, hyt⟩ := replayFrom_time_mem _ _ _ _ hx
  have hdy : d ≤ y.t := by
    have := (List.mem_filter.mp hy).2
    simpa using this
  simp only [decide_eq_true_eq]
  rw [← hyt]
  exact le_trans hcd hdy

/-- Congruence for the accepted-measurement path: it reads only the gains,
the base pose, the retention window, the samples strictly before the
timestamp, and the timestamps and odometry poses (never the fused poses) of
the samples from the timestamp on. -/
theorem fuseCorrect_congr (st stB : PoseEstimator) (m : Pose2d) (time : ℚ)
    (sAt : Pose2d × Pose2d)
    (hbase : stB.base = st.base) (hg : stB.gains = st.gains)
    (hret : stB.retention = st.retention)
    (hflt : stB.buffer.filter (fun s => s.t < time)
      = st.buffer.filter (fun s => s.t < time))
    (hkey : (stB.buffer.filter (fun s => time ≤ s.t)).map sampleKey
      = (st.buffer.filter (fun s => time ≤ s.t)).map sampleKey) :
    fuseCorrect stB m time sAt = fuseCorrect st m time sAt := by
  simp only [fuseCorrect]
  rw [hbase, hg, hret, hflt, replayFrom_congr_key _ _ _ _ hkey]

/-- Fusing at a timestamp t1 erases the effect of any earlier replay that
rewrote only samples at t2 and later, for t1 before t2: the t1 fusion reads
nothing the t2 replay changed, and its own replay rewrites every sample the
earlier replay rewrote. -/
theorem fuse_after_replay (st : PoseEstimator) (m1 : Pose2d) (t1 t2 : ℚ)
    (a2 o2 : Pose2d)
    (hsorted : st.buffer.Pairwise (fun a b => a.t < b.t))
    (hmem : ∃ s ∈ st.buffer, s.t = t1)
    (h12 : t1 < t2) :
    Fuse { st with buffer :=
        (st.buffer.filter (fun s => s.t < t2)) ++
          replayFrom a2 o2 (st.buffer.filter (fun s => t2 ≤ s.t)) } m1 t1
      = Fuse st m1 t1 := by
  obtain ⟨sStar, hmemS, htS⟩ := hmem
  set B2 := (st.buffer.filter (fun s => s.t < t2)) ++
      replayFrom a2 o2 (st.buffer.filter (fun s => t2 ≤ s.t)) with hB2def
  have hkeyAll : B2.map sampleKey = st.buffer.map sampleKey := by
    rw [hB2def, List.map_append, replayFrom_map_key, ← List.map_append,
      sorted_filter_split t2 _ hsorted]
  cases hhead : st.buffer.head? with
  | none =>
      exfalso
      cases hb : st.buffer with
      | nil => rw [hb] at hmemS; cases hmemS
      | cons a rest => rw [hb] at hhead; cases hhead
  | some oldest =>
      have hheadB2 : ∃ oldest2, B2.head? = some oldest2 ∧ oldest2.t = oldest.t := by
        have h1 : (B2.map sampleKey).head? = (st.buffer.map sampleKey).head? := by
          rw [hkeyAll]
        rw [List.head?_map, List.head?_map, hhead] at h1
        cases hB : B2.head? with
        | none => rw [hB] at h1; cases h1
        | some o2h =>
            rw [hB] at h1
            refine ⟨o2h, rfl, ?_⟩
            injection h1 with h1
            simpa [sampleKey] using congrArg Prod.fst h1
      obtain ⟨oldest2, hhead2, ht2eq⟩ := hheadB2
      have holdle : oldest.t ≤ t1 := by
        rw [← htS]
        exact sorted_head_le _ _ _ hsorted hhead hmemS
      have hg1 : ¬ t1 < oldest.t := not_lt.mpr holdle
      have hg1B : ¬ t1 < oldest2.t := by rw [ht2eq]; exact hg1
      have hlast : (st.buffer.filter (fun s => s.t ≤ t1)).getLast? = some sStar :=
        sorted_filter_le_getLast t1 _ _ hsorted hmemS htS
      have hfleq : B2.filter (fun s => s.t ≤ t1)
          = st.buffer.filter (fun s => s.t ≤ t1) := by
        rw [hB2def, List.filter_append,
          filter_replay_below a2 o2 _ t2 (fun x => x ≤ t1)
            (fun x hx => lt_of_le_of_lt hx h12),
          List.append_nil, filter_le_filter_lt _ _ _ h12]
      have hlastB2 : (B2.filter (fun s => s.t ≤ t1)).getLast? = some sStar := by
        rw [hfleq]; exact hlast
      have hsampB2 : sampleAt B2 t1 = some (sStar.fused, sStar.odo) :=
        sampleAt_exact _ _ _ hlastB2 htS
      have hsampBuf : sampleAt st.buffer t1 = some (sStar.fused, sStar.odo) :=
        sampleAt_exact _ _ _ hlast htS
      have hfltB2 : B2.filter (fun s => s.t < t1)
          = st.buffer.filter (fun s => s.t < t1) := by
        rw [hB2def, List.filter_append,
          filter_replay_below a2 o2 _ t2 (fun x => x < t1)
            (fun x hx => lt_trans hx h12),
          List.append_nil, filter_lt_filter_lt _ _ _ (le_of_lt h12)]
      have hkey1 : (B2.filter (fun s => t1 ≤ s.t)).map sampleKey
          = (st.buffer.filter (fun s => t1 ≤ s.t)).map sampleKey := by
        rw [hB2def, List.filter_append,
          filter_replay_keep a2 o2 _ t1 t2 (le_of_lt h12),
          List.map_append, replayFrom_map_key]
        conv_rhs => rw [← sorted_filter_split t2 st.buffer hsorted]
        rw [List.filter_append, List.map_append,
          filter_le_filter_le _ _ _ (le_of_lt h12)]
      have hbufB2 : ({ st with buffer := B2 } : PoseEstimator).buffer = B2 := rfl
      simp only [Fuse, hbufB2, hhead2, hhead, if_neg hg1B, if_neg hg1,
        hsampB2, hsampBuf]
      exact fuseCorrect_congr st { st with buffer := B2 } m1 t1
        (sStar.fused, sStar.odo) rfl rfl rfl hfltB2 hkey1

/-- C3 (amended): for two absolute fixes with timestamps t1 before t2, both
placeable in the existing Advance history (the buffer is chronological and a
sample exists at t1), submitting them in the order m2-then-m1 yields exactly
the state produced by fusing m1 alone: the replay triggered by the
earlier-timestamped fix recomputes every sample from t1 on out of the
recorded odometry-only deltas and so discards the later fix's correction.
Consequently the two call orders agree only when the later fix's correction
is trivial, not in general. -/
theorem fuse_overwrites_later_fix (st : PoseEstimator) (m1 m2 : Pose2d)
    (t1 t2 : ℚ)
    (hsorted : st.buffer.Pairwise (fun a b => a.t < b.t))
    (hmem : ∃ s ∈ st.buffer, s.t = t1)
    (h12 : t1 < t2) :
    Fuse (Fuse st m2 t2) m1 t1 = Fuse st m1 t1 := by
  obtain ⟨sStar, hmemS, htS⟩ := hmem
  cases hhead : st.buffer.head? with
  | none =>
      have h2 : Fuse st m2 t2 = st := by simp only [Fuse, hhead]
      rw [h2]
  | some oldest =>
      have holdle1 : oldest.t ≤ t1 := by
        rw [← htS]
        exact sorted_head_le _ _ _ hsorted hhead hmemS
      have hg2 : ¬ t2 < oldest.t := not_lt.mpr (le_trans holdle1 (le_of_lt h12))
      cases hsamp : sampleAt st.buffer t2 with
      | none =>
          have h2 : Fuse st m2 t2 = st := by
            simp only [Fuse, hhead, if_neg hg2, hsamp]
          rw [h2]
      | some sAt2 =>
          have h2 : Fuse st m2 t2 = fuseCorrect st m2 t2 sAt2 := by
            simp only [Fuse, hhead, if_neg hg2, hsamp]
          have hform : fuseCorrect st m2 t2 sAt2 = { st with buffer :=
              ((st.buffer.filter (fun s => s.t < t2)) ++
                replayFrom (poseTransformBy sAt2.1
                  ⟨(st.gains.1 * (transformFromTo sAt2.2 m2).pos.1,
                    st.gains.2.1 * (transformFromTo sAt2.2 m2).pos.2),
                   rotOfAngle (st.gains.2.2 *
                      rotAngle (transformFromTo sAt2.2 m2).rot)⟩)
                  sAt2.2 (st.buffer.filter (fun s => t2 ≤ s.t))) } := rfl
          rw [h2, hform]
          exact fuse_after_replay st m1 t1 t2 _ _ hsorted
            ⟨sStar, hmemS, htS⟩ h12

/-- Concrete three-sample estimator history used by the out-of-order fusion
witness. -/
noncomputable def cexBufSt : PoseEstimator :=
  { cexInit with buffer :=
      [⟨0, cexP 0, cexP 0⟩, ⟨1, cexP 1, cexP 1⟩, ⟨2, cexP 2, cexP 2⟩] }

/-- Witness for the amended C3: on the concrete three-sample history, fusing
the fix for timestamp 2 first and then the fix for timestamp 1 produces
exactly the state of fusing the timestamp-1 fix alone. -/
theorem fuse_overwrites_later_fix_witness :
    (cexBufSt.buffer.Pairwise (fun a b => a.t < b.t) ∧
      (∃ s ∈ cexBufSt.buffer, s.t = 1) ∧ (1 : ℚ) < 2) ∧
    Fuse (Fuse cexBufSt cexM2 2) cexM1 1 = Fuse cexBufSt cexM1 1 := by
  have hs : cexBufSt.buffer.Pairwise (fun a b => a.t < b.t) := by
    norm_num [cexBufSt, List.pairwise_cons]
  have hm : ∃ s ∈ cexBufSt.buffer, s.t = 1 :=
    ⟨⟨1, cexP 1, cexP 1⟩, by simp [cexBufSt], rfl⟩
  exact ⟨⟨hs, hm, by norm_num⟩,
    fuse_overwrites_later_fix cexBufSt cexM1 cexM2 1 2 hs hm (by norm_num)⟩
